import Mathlib

/-!
Verification of the chess-assistant core of the Grok-Api-Chess-Bot repository.

The repository delegates the chess rules themselves to the external
python-chess library; its own engineering is the game-state management in
`grok_chess.py` (`ChessVsAI`: `reset_game`, `make_move`, `undo_move`,
`check_game_end`, `create_pgn_game`, the Ollama move pipeline with its
`lru_cache`) and the FEN construction/validation helpers in
`src/browser_helper.py` and `chess_move_suggester.py`.

Modelling conventions:
* a python-chess `Board` is its move stack over the standard initial
  position: `push` appends a move, `pop` removes the last one;
* the rule-level queries supplied by python-chess (`legal_moves`,
  `is_checkmate`, ...) are an explicit `ChessLib` record of functions, so
  every theorem holds for an arbitrary rules oracle;
* the Stockfish evaluation call is an oracle `Board → Option (EvalScore ×
  Option Move)` (`none` models "no engine / engine exception", in which case
  the source appends the defaults `0.0` / `None`);
* floats appear in the source only as display values (`cp / 100.0`); scores
  are kept as integer centipawns here.
-/

namespace GrokChess

/-- Side colours, the values of `current_turn` / `player_side`. -/
inductive Color
  | white
  | black
deriving DecidableEq, Repr

/-- The opposite colour. -/
def Color.other : Color → Color
  | .white => .black
  | .black => .white

/-- A python-chess `Move`: origin square, destination square (0..63),
optional promotion piece letter. -/
structure Move where
  fromSq : Nat
  toSq : Nat
  promotion : Option Char
deriving DecidableEq, Repr

/-- A python-chess `Board`, modelled as its move stack over the standard
initial position.  `board.push(m)` appends, `board.pop()` drops the last. -/
abbrev Board := List Move

/-- `board.push(move)`. -/
def Board.push (b : Board) (m : Move) : Board := b ++ [m]

/-- `board.pop()` (as far as the resulting stack is concerned). -/
def Board.popLast (b : Board) : Board := b.dropLast

/-- The side to move of a board: white moves first from the standard
initial position, sides alternate with each pushed move. -/
def sideToMove (b : Board) : Color :=
  if b.length % 2 = 0 then Color.white else Color.black

/-- The rule-level queries the source obtains from the external
python-chess library; kept abstract so theorems hold for any rules oracle. -/
structure ChessLib where
  legal_moves : Board → List Move
  is_checkmate : Board → Bool
  is_stalemate : Board → Bool
  is_insufficient_material : Board → Bool
  is_fifty_moves : Board → Bool
  is_repetition : Board → Bool

/-- A Stockfish evaluation score: the source stores either a centipawn
value (displayed as `cp / 100.0`) or a mate announcement `"M{n}"`. -/
inductive EvalScore
  | cp (centipawns : Int)
  | mateIn (n : Int)
deriving DecidableEq, Repr

/-- The mutable state of `ChessVsAI` (grok_chess.py) that the game logic
reads and writes.  `ollama_cache` is the memo of the `functools.lru_cache`
decorating `cached_ollama_move` (keyed by position, most recent first); it
lives on the class function, so `reset_game` does not touch it. -/
structure GameState where
  chess_board : Board
  move_history : List (Move × Board)
  board_history : List Board
  evaluations : List EvalScore
  best_moves : List (Option Move)
  selected_square : Option Nat
  last_move : Option (Nat × Nat)
  current_turn : Color
  game_over : Bool
  review_mode : Bool
  current_review_move : Nat
  ai_thinking : Bool
  pgn_comments : List (Nat × String)
  player_side : Color
  ollama_cache : List (Board × (Option String × String))
  status_text : String
deriving DecidableEq, Repr

/-- `ChessVsAI.reset_game` (grok_chess.py lines 103-128): fresh board,
singleton history lists, flags cleared.  `player_side`, the
`cached_ollama_move` lru cache and the status label survive a reset. -/
def reset_game (s : GameState) : GameState :=
  { s with
    chess_board := []
    move_history := []
    board_history := [[]]
    evaluations := [EvalScore.cp 0]
    best_moves := [none]
    selected_square := none
    last_move := none
    current_turn := Color.white
    game_over := false
    review_mode := false
    current_review_move := 0
    ai_thinking := false
    pgn_comments := [] }

/-- `ChessVsAI.get_position_evaluation` (lines 598-626): appends exactly one
entry to `evaluations` and one to `best_moves` — the engine's answer, or the
defaults `0.0`/`None` when there is no engine or the analysis fails. -/
def get_position_evaluation (oracle : Board → Option (EvalScore × Option Move))
    (s : GameState) : GameState :=
  match oracle s.chess_board with
  | none =>
      { s with
        evaluations := s.evaluations ++ [EvalScore.cp 0]
        best_moves := s.best_moves ++ [none] }
  | some (e, m) =>
      { s with
        evaluations := s.evaluations ++ [e]
        best_moves := s.best_moves ++ [m] }

/-- `ChessVsAI.make_move` (lines 576-596): rejected outright (returning
`False` with no mutation) when the game is over, review mode is active or
the move is not legal; otherwise pushes the move, appends to the history
lists, records an evaluation, flips `current_turn` and sets `last_move`. -/
def make_move (lib : ChessLib) (oracle : Board → Option (EvalScore × Option Move))
    (s : GameState) (m : Move) : Bool × GameState :=
  if s.game_over ∨ s.review_mode ∨ m ∉ lib.legal_moves s.chess_board then
    (false, s)
  else
    let move_data := (m, s.chess_board)
    let board1 := s.chess_board.push m
    let s1 := { s with
      chess_board := board1
      move_history := s.move_history ++ [move_data]
      board_history := s.board_history ++ [board1] }
    let s2 := get_position_evaluation oracle s1
    (true, { s2 with
      current_turn := if s.current_turn = Color.white then Color.black else Color.white
      last_move := some (m.fromSq, m.toSq) })

/-- One iteration of the `undo_move` pop loop body (lines 640-646): when
`move_history` is non-empty, drop the last entry of every history list and
pop the board. -/
def undo_pop (s : GameState) : GameState :=
  if s.move_history = [] then s
  else
    { s with
      move_history := s.move_history.dropLast
      board_history := s.board_history.dropLast
      evaluations := s.evaluations.dropLast
      best_moves := s.best_moves.dropLast
      chess_board := s.chess_board.popLast }

/-- `ChessVsAI.undo_move` (lines 628-660).  Returns `False` untouched when
there is no history, review mode is active or the AI is thinking.  Then the
source's sanity check — the Python chained comparison
`len(move_history) == len(board_history) - 1 == len(evaluations) ==
len(best_moves)` — must hold, or a `ChessError` is raised (and caught,
returning `False` with no mutation).  On success two plies are popped when
at least two moves exist, one otherwise, and turn/flags are recomputed. -/
def undo_move (s : GameState) : Bool × GameState :=
  if s.move_history = [] ∨ s.review_mode ∨ s.ai_thinking then
    (false, s)
  else if (s.move_history.length : Int) = (s.board_history.length : Int) - 1
      ∧ (s.board_history.length : Int) - 1 = (s.evaluations.length : Int)
      ∧ (s.evaluations.length : Int) = (s.best_moves.length : Int) then
    let moves_to_undo := if 2 ≤ s.move_history.length then 2 else 1
    let s1 := undo_pop^[moves_to_undo] s
    (true, { s1 with
      current_turn := if s1.move_history.length % 2 = 0 then Color.white else Color.black
      game_over := false
      last_move := none })
  else
    (false, s)

/-- `ChessVsAI.check_game_end` (lines 901-933): the first terminal condition
that fires sets `game_over` and the status text; on checkmate the declared
winner is the side opposite to `current_turn`. -/
def check_game_end (lib : ChessLib) (s : GameState) : GameState :=
  if lib.is_checkmate s.chess_board then
    let winner := if s.current_turn = Color.white then "Black" else "White"
    { s with status_text := "Checkmate! " ++ winner ++ " wins!", game_over := true }
  else if lib.is_stalemate s.chess_board then
    { s with status_text := "Draw by stalemate!", game_over := true }
  else if lib.is_insufficient_material s.chess_board then
    { s with status_text := "Draw by insufficient material!", game_over := true }
  else if lib.is_fifty_moves s.chess_board then
    { s with status_text := "Draw by fifty-move rule!", game_over := true }
  else if lib.is_repetition s.chess_board then
    { s with status_text := "Draw by repetition!", game_over := true }
  else s

/-- `ChessVsAI.resign` (lines 662-673): sets `game_over` and declares the
side opposite to the player the winner. -/
def resign (s : GameState) : GameState :=
  if ¬ s.game_over ∧ ¬ s.ai_thinking then
    let winner := if s.player_side = Color.white then "Black" else "White"
    { s with status_text := "You resigned! " ++ winner ++ " wins!", game_over := true }
  else s

/-- `ChessVsAI.new_game` (lines 1574-1588): refuses while the AI is
thinking, otherwise delegates to `reset_game`. -/
def new_game (s : GameState) : GameState :=
  if s.ai_thinking then s else reset_game s

/-- The `Result` header computed by `ChessVsAI.create_pgn_game`
(lines 705-713). -/
def pgn_result (lib : ChessLib) (s : GameState) : String :=
  if lib.is_checkmate s.chess_board then
    if s.current_turn = Color.black then "1-0" else "0-1"
  else if lib.is_stalemate s.chess_board ∨ lib.is_insufficient_material s.chess_board
      ∨ lib.is_fifty_moves s.chess_board ∨ lib.is_repetition s.chess_board then
    "1/2-1/2"
  else if s.game_over then
    if s.player_side = Color.white then "0-1" else "1-0"
  else
    "*"

/-- `ChessVsAI.get_random_move` (lines 1432-1442): `None` when there is no
legal move, otherwise `random.choice` — modelled by an arbitrary chooser
index into the legal-move list. -/
def get_random_move (lib : ChessLib) (choice : Nat) (b : Board) : Option Move :=
  match lib.legal_moves b with
  | [] => none
  | (m :: ms) => some ((m :: ms).get ⟨choice % (m :: ms).length, Nat.mod_lt _ (Nat.succ_pos _)⟩)

/-! ## FEN construction and validation

`BrowserHelper.board_array_to_fen` / `validate_fen` (src/browser_helper.py)
and the identical row encoder in `ChessBoardDetector.detect_board_to_fen`
(chess_move_suggester.py).  `validate_fen` delegates acceptance to the
external python-chess board constructor `chess.Board(fen)`; `fenOk` below
models that constructor's structural validation (`Board.set_fen` /
`_set_board_fen`): missing trailing fields default, extra parts are
rejected, placement rows must use piece letters and non-adjacent digits
1-8 and sum to 8 per rank, with 8 ranks. -/

/-- One board square as the source stores it: `none` is the empty string,
`some c` a FEN piece letter from `get_piece_type`. -/
abbrev Cell := Option Char

/-- The FEN piece letters (`get_piece_type` values, and the piece symbols
python-chess accepts in a placement row). -/
def pieceChars : List Char :=
  ['P', 'N', 'B', 'R', 'Q', 'K', 'p', 'n', 'b', 'r', 'q', 'k']

/-- `str(empty)` for the run lengths 1..8 that can occur in a rank. -/
def digitChar (n : Nat) : Char := Char.ofNat (48 + n)

/-- The per-rank loop of `board_array_to_fen` (lines 126-138): `e` is the
pending `empty` counter; a digit is flushed before a piece letter and at the
end of the rank. -/
def encodeRowAux : List Cell → Nat → List Char
  | [], e => if e = 0 then [] else [digitChar e]
  | none :: rest, e => encodeRowAux rest (e + 1)
  | some c :: rest, e =>
      (if e = 0 then [] else [digitChar e]) ++ c :: encodeRowAux rest 0

/-- The FEN row produced for one rank of the board array. -/
def encodeRow (row : List Cell) : List Char := encodeRowAux row 0

/-- Standard FEN rank expansion (the import direction the specification's
round-trip claim compares against): a digit 1-8 stands for that many empty
squares, a piece letter for itself. -/
def decodeRow : List Char → Option (List Cell)
  | [] => some []
  | ch :: rest =>
      if 49 ≤ ch.toNat ∧ ch.toNat ≤ 56 then
        (decodeRow rest).map (fun cells => List.replicate (ch.toNat - 48) none ++ cells)
      else if ch ∈ pieceChars then
        (decodeRow rest).map (fun cells => some ch :: cells)
      else none

/-- Digits `"1"`..`"8"`, the only digits python-chess accepts in a
placement row. -/
def isDigit18 (c : Char) : Bool := 49 ≤ c.toNat && c.toNat ≤ 56

/-- One row of the placement validation done by the python-chess board
constructor: digits 1-8 never adjacent, otherwise piece letters, and the
fields must sum to exactly 8.  `fieldSum` and `prevDigit` are the scanner
state. -/
def fenRowCheck : List Char → Nat → Bool → Bool
  | [], fieldSum, _ => fieldSum = 8
  | c :: rest, fieldSum, prevDigit =>
      if isDigit18 c then
        !prevDigit && fenRowCheck rest (fieldSum + (c.toNat - 48)) true
      else if c ∈ pieceChars then
        fenRowCheck rest (fieldSum + 1) false
      else false

/-- Split a character list at every `'/'` (the rank separator). -/
def splitOnSlash : List Char → List (List Char)
  | [] => [[]]
  | c :: rest =>
      if c = '/' then [] :: splitOnSlash rest
      else
        match splitOnSlash rest with
        | [] => [[c]]
        | r :: rs => (c :: r) :: rs

/-- `'/'.join(fen_rows)` (board_array_to_fen line 140). -/
def joinSlash : List (List Char) → List Char
  | [] => []
  | [r] => r
  | r :: r2 :: rest => r ++ '/' :: joinSlash (r2 :: rest)

/-- Whitespace for Python's `str.split()` with no separator argument. -/
def isWs (c : Char) : Bool := c = ' ' || c = '\n' || c = '\t' || c = '\r'

/-- Worker for Python's `str.split()`: `acc` holds the reversed current
word. -/
def splitWsAux : List Char → List Char → List (List Char)
  | [], acc => if acc = [] then [] else [acc.reverse]
  | c :: rest, acc =>
      if isWs c then
        if acc = [] then splitWsAux rest []
        else acc.reverse :: splitWsAux rest []
      else splitWsAux rest (c :: acc)

/-- Python's `str.split()`: split on whitespace runs, dropping empties. -/
def splitWs (cs : List Char) : List (List Char) := splitWsAux cs []

/-- `str.strip()`. -/
def stripChars (cs : List Char) : List Char :=
  ((cs.dropWhile isWs).reverse.dropWhile isWs).reverse

/-- The placement part of the python-chess constructor validation: exactly
8 rank rows, each passing `fenRowCheck`. -/
def placementOk (cs : List Char) : Bool :=
  let rows := splitOnSlash cs
  rows.length = 8 && rows.all (fun r => fenRowCheck r 0 false)

/-- The side-to-move token: `"w"` or `"b"`. -/
def turnTokOk (t : List Char) : Bool := t = ['w'] || t = ['b']

/-- Characters admitted before the case switch of the python-chess castling
regex `[KQABCDEFGH]{0,2}[kqabcdefgh]{0,2}`. -/
def isUpperCastle (c : Char) : Bool :=
  c = 'K' || c = 'Q' || (65 ≤ c.toNat && c.toNat ≤ 72)

/-- Lowercase castling characters `[kqabcdefgh]`. -/
def isLowerCastle (c : Char) : Bool :=
  c = 'k' || c = 'q' || (97 ≤ c.toNat && c.toNat ≤ 104)

/-- The python-chess castling-token regex: `-`, or up to two uppercase
castling characters followed by up to two lowercase ones. -/
def castlingTokOk (cs : List Char) : Bool :=
  if cs = ['-'] then true
  else
    let uppers := cs.takeWhile isUpperCastle
    let rest := cs.dropWhile isUpperCastle
    decide (uppers.length ≤ 2) && decide (rest.length ≤ 2) && rest.all isLowerCastle

/-- The en-passant token: `-` or a square name `[a-h][1-8]`. -/
def epTokOk (cs : List Char) : Bool :=
  match cs with
  | ['-'] => true
  | [f, r] => (97 ≤ f.toNat && f.toNat ≤ 104) && (49 ≤ r.toNat && r.toNat ≤ 56)
  | _ => false

/-- A clock token `int(...)` accepts (sign and exotic spellings omitted:
the clocks the repository builds are plain digit strings). -/
def numTokOk (cs : List Char) : Bool := !cs.isEmpty && cs.all Char.isDigit

/-- Structural FEN acceptance of the python-chess board constructor
(`chess.Board(fen)` / `Board.set_fen`), which `validate_fen` delegates to:
split on whitespace, at least the placement field, missing trailing fields
default, at most six fields. -/
def fenOk (fen : String) : Bool :=
  match splitWs fen.data with
  | [bp] => placementOk bp
  | [bp, tp] => placementOk bp && turnTokOk tp
  | [bp, tp, cp] => placementOk bp && turnTokOk tp && castlingTokOk cp
  | [bp, tp, cp, ep] =>
      placementOk bp && turnTokOk tp && castlingTokOk cp && epTokOk ep
  | [bp, tp, cp, ep, hm] =>
      placementOk bp && turnTokOk tp && castlingTokOk cp && epTokOk ep && numTokOk hm
  | [bp, tp, cp, ep, hm, fm] =>
      placementOk bp && turnTokOk tp && castlingTokOk cp && epTokOk ep
        && numTokOk hm && numTokOk fm
  | _ => false

/-- `chess.STARTING_FEN`. -/
def STARTING_FEN : String :=
  "rnbqkbnr/pppppppp/8/8/8/8/PPPPPPPP/RNBQKBNR w KQkq - 0 1"

/-- `BrowserHelper.validate_fen` (src/browser_helper.py lines 146-151):
returns the input when `chess.Board(fen)` accepts it, and silently
substitutes the standard starting FEN otherwise. -/
def validate_fen (fen : String) : String :=
  if fenOk fen then fen else STARTING_FEN

/-- The placement field `'/'.join(fen_rows)` built by
`board_array_to_fen`. -/
def placementField (board : List (List Cell)) : List Char :=
  joinSlash (board.map encodeRow)

/-- `BrowserHelper.board_array_to_fen` (lines 122-144): run-length encodes
each rank, joins with `'/'`, appends `" w KQkq - 0 1"` and passes the
result through `validate_fen`. -/
def board_array_to_fen (board : List (List Cell)) : String :=
  validate_fen (String.mk (placementField board ++ " w KQkq - 0 1".data))

/-- Decoding the whole placement field: split on `'/'`, expand each rank. -/
def decodePlacement (cs : List Char) : Option (List (List Cell)) :=
  (splitOnSlash cs).mapM decodeRow

/-- A valid source board cell: empty, or one of the piece letters
`get_piece_type` can produce. -/
def validCell (c : Cell) : Prop :=
  match c with
  | none => True
  | some ch => ch ∈ pieceChars

instance : DecidablePred validCell := fun c => by
  cases c <;> simp only [validCell] <;> infer_instance

/-! ## The lru_cache memo of cached_ollama_move -/

/-- Lookup in the memo of a `functools.lru_cache` (most recent first). -/
def lruLookup {α : Type} (cache : List (Board × α)) (k : Board) : Option α :=
  (cache.find? (fun e => decide (e.1 = k))).map Prod.snd

/-- A call through `functools.lru_cache(maxsize)` (grok_chess.py line 1300,
maxsize `CONFIG["transposition_table_size"] = 1000`): a hit moves the key to
most-recent position; a miss computes, inserts as most recent and evicts the
least recently used entries beyond `maxsize`. -/
def lruCall {α : Type} (maxsize : Nat) (cache : List (Board × α)) (k : Board)
    (compute : Unit → α) : α × List (Board × α) :=
  match lruLookup cache k with
  | some v => (v, (k, v) :: cache.filter (fun e => decide (e.1 ≠ k)))
  | none =>
      let v := compute ()
      (v, ((k, v) :: cache).take maxsize)

/-! ## The Ollama move pipeline (grok_chess.py lines 1300-1400) -/

/-- A file character `[a-h]`. -/
def isFileChar (c : Char) : Bool := 97 ≤ c.toNat && c.toNat ≤ 104

/-- A rank character `[1-8]`. -/
def isRankChar (c : Char) : Bool := 49 ≤ c.toNat && c.toNat ≤ 56

/-- A promotion character `[qrbn]`. -/
def isPromoChar (c : Char) : Bool := c = 'q' || c = 'r' || c = 'b' || c = 'n'

/-- Match the regex `Move: ([a-h][1-8][a-h][1-8][qrbn]?)\n` anchored at the
head of the text; the greedy optional promotion group prefers the longer
alternative. -/
def matchMoveAt : List Char → Option (List Char)
  | 'M' :: 'o' :: 'v' :: 'e' :: ':' :: ' ' :: a :: b :: c :: d :: rest =>
      if isFileChar a && isRankChar b && isFileChar c && isRankChar d then
        match rest with
        | [] => none
        | p :: rest2 =>
            if isPromoChar p then
              match rest2 with
              | '\n' :: _ => some [a, b, c, d, p]
              | _ => none
            else if p = '\n' then some [a, b, c, d]
            else none
      else none
  | _ => none

/-- `re.search` for the move regex: leftmost match wins. -/
def searchMove : List Char → Option (List Char)
  | [] => none
  | c :: rest =>
      match matchMoveAt (c :: rest) with
      | some m => some m
      | none => searchMove rest

/-- `chess.Move.from_uci` on strings shaped like the UCI pattern the source
checks: origin file/rank, destination file/rank, optional promotion. -/
def from_uci (cs : List Char) : Option Move :=
  match cs with
  | [a, b, c, d] =>
      if isFileChar a && isRankChar b && isFileChar c && isRankChar d then
        some ⟨(b.toNat - 49) * 8 + (a.toNat - 97), (d.toNat - 49) * 8 + (c.toNat - 97), none⟩
      else none
  | [a, b, c, d, p] =>
      if isFileChar a && isRankChar b && isFileChar c && isRankChar d && isPromoChar p then
        some ⟨(b.toNat - 49) * 8 + (a.toNat - 97), (d.toNat - 49) * 8 + (c.toNat - 97), some p⟩
      else none
  | _ => none

/-- One attempt of the `cached_ollama_move` retry loop (lines 1334-1376):
`none` models an ollama exception; otherwise the response text is searched
for `Move: <uci>\n`, the extracted string parsed with `from_uci`, and kept
only when the move is legal on the current board.  (The strategic
explanation text is display-only and not modelled.) -/
def ollamaAttempt (lib : ChessLib) (b : Board) (resp : Option (List Char)) :
    Option (List Char) :=
  match resp with
  | none => none
  | some text =>
      match searchMove text with
      | none => none
      | some mstr =>
          match from_uci mstr with
          | none => none
          | some m => if m ∈ lib.legal_moves b then some mstr else none

/-- The body of `cached_ollama_move` (lines 1300-1382): up to three oracle
responses are tried; the first legal extracted move is returned as a UCI
string, else the failure value. -/
def cached_ollama_move_fresh (lib : ChessLib) (b : Board)
    (responses : List (Option (List Char))) : Option String × String :=
  match (responses.take 3).findSome? (ollamaAttempt lib b) with
  | some mstr => (some (String.mk mstr), "explanation")
  | none => (none, "No valid move found.")

/-- `cached_ollama_move` as invoked through its `functools.lru_cache`: a
prior cache entry for the position (possibly from an earlier game) is
returned as-is; otherwise the body runs and the memo is updated. -/
def cached_ollama_move (lib : ChessLib) (s : GameState)
    (responses : List (Option (List Char))) :
    (Option String × String) × List (Board × (Option String × String)) :=
  lruCall 1000 s.ollama_cache s.chess_board
    (fun _ => cached_ollama_move_fresh lib s.chess_board responses)

/-- `ChessVsAI.get_ollama_move` (lines 1384-1400): consult the cached
helper, re-parse the UCI string and re-check legality against the current
board before returning the move; every failure path yields `none`. -/
def get_ollama_move (lib : ChessLib) (s : GameState)
    (responses : List (Option (List Char))) : Option Move × GameState :=
  let r := cached_ollama_move lib s responses
  let s1 := { s with ollama_cache := r.2 }
  match r.1.1 with
  | none => (none, s1)
  | some mstr =>
      match from_uci mstr.data with
      | none => (none, s1)
      | some m =>
          if m ∈ lib.legal_moves s1.chess_board then
            let s2 :=
              if r.1.2 ≠ "" ∧ s1.current_turn ≠ s1.player_side then
                { s1 with pgn_comments :=
                    s1.pgn_comments ++
                      [(s1.move_history.length, "AI (Ollama): " ++ r.1.2)] }
              else s1
            (some m, s2)
          else (none, s1)

/-! ## ChessEngine.get_best_move (src/src/chess_engine.py lines 12-65) -/

/-- `ChessEngine.get_best_move`: `parse_san` stands for the external
python-chess SAN parser; `apiKey` is the `GROK_API_KEY` environment value;
`resp` is the HTTP outcome (`none` models a raised exception, otherwise
status code and response text).  The suggested move is accepted only when
`board.is_legal` holds for its parse. -/
def get_best_move (parse_san : Board → String → Option Move) (lib : ChessLib)
    (apiKey : Option String) (resp : Option (Nat × List Char)) (b : Board) :
    Option String × String :=
  match apiKey with
  | none => (none, "API key not set.")
  | some _ =>
      match resp with
      | none => (none, "request exception")
      | some (status, text) =>
          if status = 200 then
            let result := stripChars text
            let line0 := result.takeWhile (fun c => !(c == '\n'))
            let rest := result.dropWhile (fun c => !(c == '\n'))
            let explanation :=
              match rest with
              | [] => ""
              | _ :: tail => String.mk (stripChars tail)
            match (splitWs line0).getLast? with
            | none => (none, "index error")
            | some w =>
                let mstr := String.mk (stripChars w)
                match parse_san b mstr with
                | some mv =>
                    if mv ∈ lib.legal_moves b then (some mstr, explanation)
                    else (none, "No valid move found")
                | none => (none, "No valid move found")
          else (none, "API error")

/-- A concrete freshly reset state, used as the base point of witnesses. -/
def sampleState : GameState :=
  { chess_board := []
    move_history := []
    board_history := [[]]
    evaluations := [EvalScore.cp 0]
    best_moves := [none]
    selected_square := none
    last_move := none
    current_turn := Color.white
    game_over := false
    review_mode := false
    current_review_move := 0
    ai_thinking := false
    pgn_comments := []
    player_side := Color.white
    ollama_cache := []
    status_text := "Your move" }

/-- A concrete rules oracle for witnesses: a single fixed legal move
everywhere, no terminal conditions. -/
def sampleLib : ChessLib :=
  { legal_moves := fun _ => [⟨12, 28, none⟩]
    is_checkmate := fun _ => false
    is_stalemate := fun _ => false
    is_insufficient_material := fun _ => false
    is_fifty_moves := fun _ => false
    is_repetition := fun _ => false }

/-- A concrete evaluation oracle for witnesses: no engine available. -/
def sampleOracle : Board → Option (EvalScore × Option Move) := fun _ => none

/-- A concrete rules oracle whose classifier always reports checkmate. -/
def sampleMateLib : ChessLib :=
  { sampleLib with is_checkmate := fun _ => true }

/-- The length relation the history lists of `ChessVsAI` satisfy:
`board_history`, `evaluations` and `best_moves` each hold one entry per
applied move plus the initial one. -/
def histInv (s : GameState) : Prop :=
  s.board_history.length = s.move_history.length + 1
    ∧ s.evaluations.length = s.move_history.length + 1
    ∧ s.best_moves.length = s.move_history.length + 1

/-- A concrete rules oracle with no legal moves anywhere. -/
def emptyLib : ChessLib :=
  { sampleLib with legal_moves := fun _ => [] }

/-! ## Helper lemmas -/

/-- `get_position_evaluation` appends exactly one entry to `evaluations`
and one to `best_moves`, leaving the other history lists untouched. -/
theorem get_position_evaluation_shape (oracle : Board → Option (EvalScore × Option Move))
    (s : GameState) :
    (get_position_evaluation oracle s).move_history = s.move_history
    ∧ (get_position_evaluation oracle s).board_history = s.board_history
    ∧ (get_position_evaluation oracle s).evaluations.length = s.evaluations.length + 1
    ∧ (get_position_evaluation oracle s).best_moves.length = s.best_moves.length + 1 := by
  unfold get_position_evaluation
  cases oracle s.chess_board with
  | none => simp
  | some em => cases em with | mk e m => simp

/-- The memo of a bounded `lru_cache` never exceeds its capacity. -/
theorem lruCall_length_le {α : Type} (maxsize : Nat) (cache : List (Board × α))
    (k : Board) (compute : Unit → α) (h : cache.length ≤ maxsize) :
    ((lruCall maxsize cache k compute).2).length ≤ maxsize := by
  unfold lruCall
  cases hfind : lruLookup cache k with
  | none =>
      simp only [List.length_take]
      omega
  | some v =>
      simp only [List.length_cons]
      have hexists : ∃ e ∈ cache, ¬ ((fun e : Board × α => decide (e.1 ≠ k)) e = true) := by
        unfold lruLookup at hfind
        cases hf : cache.find? (fun e => decide (e.1 = k)) with
        | none => rw [hf] at hfind; simp at hfind
        | some e =>
            refine ⟨e, List.mem_of_find?_eq_some hf, ?_⟩
            have hp := List.find?_some hf
            simp only [decide_eq_true_eq] at hp
            simp [hp]
      have hlt := List.length_filter_lt_length_iff_exists.mpr hexists
      omega

/-! ## Claims -/

/-- C1 (corrected), counterexample: `validate_fen` does not fail on the
malformed position string `"bad fen"`; it silently substitutes the standard
starting position, which the claim forbids. -/
theorem c1_malformed_fen_silently_replaced :
    fenOk "bad fen" = false
    ∧ validate_fen "bad fen" = STARTING_FEN
    ∧ "bad fen" ≠ STARTING_FEN := by
  refine ⟨by decide, by decide, by decide⟩

/-- C1 (amended): on every malformed position string, `validate_fen`
silently returns the standard starting FEN instead of failing explicitly;
well-formed input passes through unchanged. -/
theorem c1_validate_fen_silent_fallback (fen : String) :
    (fenOk fen = false → validate_fen fen = STARTING_FEN)
    ∧ (fenOk fen = true → validate_fen fen = fen) := by
  unfold validate_fen
  constructor <;> intro h <;> simp [h]

/-- C1 witness: the amended behaviour evaluated on a concrete malformed
string and on a concrete well-formed one. -/
theorem c1_validate_fen_silent_fallback_witness :
    validate_fen "bad fen" = STARTING_FEN ∧ validate_fen "8/8/8/8/8/8/8/8 w - - 0 1" = "8/8/8/8/8/8/8/8 w - - 0 1" :=
  ⟨(c1_validate_fen_silent_fallback "bad fen").1 (by decide),
   (c1_validate_fen_silent_fallback "8/8/8/8/8/8/8/8 w - - 0 1").2 (by decide)⟩

/-- C2 (code bug): after one successful `make_move` from a fresh game, the
source's `undo_move` returns `False` and undoes nothing: its sanity check
`len(move_history) == len(board_history) - 1 == len(evaluations) ==
len(best_moves)` can never hold, because `make_move` always leaves
`evaluations` and `best_moves` one longer than `move_history`. -/
theorem c2_undo_after_make_move_fails :
    (make_move sampleLib sampleOracle (reset_game sampleState) ⟨12, 28, none⟩).1 = true
    ∧ undo_move (make_move sampleLib sampleOracle (reset_game sampleState) ⟨12, 28, none⟩).2
        = (false, (make_move sampleLib sampleOracle (reset_game sampleState) ⟨12, 28, none⟩).2) := by
  exact ⟨by decide, by decide⟩

/-- C3 (confirmed): when the game is over, review mode is active or the
move is not among the current legal moves, `make_move` reports failure and
the whole game state — board and histories — is left exactly as it was:
apply is all-or-nothing. -/
theorem c3_invalid_make_move_is_noop (lib : ChessLib)
    (oracle : Board → Option (EvalScore × Option Move)) (s : GameState) (m : Move)
    (h : s.game_over ∨ s.review_mode ∨ m ∉ lib.legal_moves s.chess_board) :
    make_move lib oracle s m = (false, s) := by
  unfold make_move
  rw [if_pos h]

/-- C3 witness: a move attempt rejected in review mode leaves the concrete
state untouched. -/
theorem c3_invalid_make_move_is_noop_witness :
    make_move sampleLib sampleOracle { sampleState with review_mode := true } ⟨12, 28, none⟩
      = (false, { sampleState with review_mode := true }) :=
  c3_invalid_make_move_is_noop sampleLib sampleOracle
    { sampleState with review_mode := true } ⟨12, 28, none⟩ (Or.inr (Or.inl rfl))

/-- C4 (confirmed): every terminal classification fired by
`check_game_end` sets `game_over`, and as long as `game_over` is set every
`make_move` returns `False` and leaves the state — in particular the board
— unchanged. -/
theorem c4_game_over_locks_position :
    (∀ (lib : ChessLib) (oracle : Board → Option (EvalScore × Option Move))
        (s : GameState) (m : Move), s.game_over = true →
        make_move lib oracle s m = (false, s))
    ∧ (∀ (lib : ChessLib) (s : GameState),
        (lib.is_checkmate s.chess_board = true ∨ lib.is_stalemate s.chess_board = true
          ∨ lib.is_insufficient_material s.chess_board = true
          ∨ lib.is_fifty_moves s.chess_board = true
          ∨ lib.is_repetition s.chess_board = true) →
        (check_game_end lib s).game_over = true) := by
  constructor
  · intro lib oracle s m h
    unfold make_move
    rw [if_pos (Or.inl h)]
  · intro lib s h
    unfold check_game_end
    split
    · rfl
    · split
      · rfl
      · split
        · rfl
        · split
          · rfl
          · split
            · rfl
            · simp_all

/-- C4 witness: a finished game refuses a concrete move, and a concrete
checkmate classification sets `game_over`. -/
theorem c4_game_over_locks_position_witness :
    make_move sampleLib sampleOracle { sampleState with game_over := true } ⟨12, 28, none⟩
      = (false, { sampleState with game_over := true })
    ∧ (check_game_end sampleMateLib sampleState).game_over = true :=
  ⟨c4_game_over_locks_position.1 sampleLib sampleOracle
      { sampleState with game_over := true } ⟨12, 28, none⟩ rfl,
   c4_game_over_locks_position.2 sampleMateLib sampleState (Or.inl rfl)⟩

/-- C6 (corrected), counterexample: `reset_game` leaves the
`cached_ollama_move` memo exactly as it was — the cache is not cleared on a
new game, contradicting the claim. -/
theorem c6_reset_does_not_clear_cache :
    (reset_game { sampleState with
        ollama_cache := [([], (some "e2e4", "ok"))] }).ollama_cache
      = [([], (some "e2e4", "ok"))]
    ∧ ([([], (some "e2e4", "ok"))] : List (Board × (Option String × String))) ≠ [] :=
  ⟨rfl, by decide⟩

/-- C6 (amended): the `lru_cache` memo of `cached_ollama_move` is bounded
by the configured capacity 1000 with least-recently-used eviction, but it
is NOT cleared on a new game: `reset_game` and `new_game` leave it exactly
as it was. -/
theorem c6_cache_bounded_lru_persists :
    (∀ (α : Type) (cache : List (Board × α)) (k : Board) (compute : Unit → α),
        cache.length ≤ 1000 → ((lruCall 1000 cache k compute).2).length ≤ 1000)
    ∧ (∀ s : GameState, (reset_game s).ollama_cache = s.ollama_cache)
    ∧ (∀ s : GameState, (new_game s).ollama_cache = s.ollama_cache) := by
  refine ⟨?_, fun s => rfl, fun s => ?_⟩
  · intro α cache k compute h
    exact lruCall_length_le 1000 cache k compute h
  · unfold new_game
    split <;> rfl

/-- C6 witness: the amended statement evaluated on a concrete cache and a
concrete state. -/
theorem c6_cache_bounded_lru_persists_witness :
    ((lruCall 1000 ([([], (some "e2e4", "ok"))] : List (Board × (Option String × String)))
        [⟨12, 28, none⟩] (fun _ => (none, ""))).2).length ≤ 1000
    ∧ (reset_game { sampleState with ollama_cache := [([], (some "e2e4", "ok"))] }).ollama_cache
        = [([], (some "e2e4", "ok"))] :=
  ⟨c6_cache_bounded_lru_persists.1 (Option String × String)
      [([], (some "e2e4", "ok"))] [⟨12, 28, none⟩] (fun _ => (none, "")) (by decide),
   c6_cache_bounded_lru_persists.2.1 { sampleState with ollama_cache := [([], (some "e2e4", "ok"))] }⟩

/-- C7 (confirmed): with zero legal moves for the side to move, both
best-move entry points return the failure value: `get_random_move` yields
`None`, and `ChessEngine.get_best_move` yields `None` whatever the API
response. -/
theorem c7_no_legal_moves_yields_none (lib : ChessLib) (b : Board)
    (h : lib.legal_moves b = []) :
    (∀ choice : Nat, get_random_move lib choice b = none)
    ∧ (∀ (parse_san : Board → String → Option Move) (apiKey : Option String)
        (resp : Option (Nat × List Char)),
        (get_best_move parse_san lib apiKey resp b).1 = none) := by
  constructor
  · intro choice
    unfold get_random_move
    rw [h]
  · intro ps key resp
    unfold get_best_move
    cases key with
    | none => rfl
    | some kk =>
        cases resp with
        | none => rfl
        | some sr =>
            obtain ⟨status, text⟩ := sr
            by_cases hs : status = 200
            · simp only [if_pos hs]
              split
              · rfl
              · split
                · simp [h]
                · rfl
            · simp only [if_neg hs]

/-- C7 witness: the failure value on a concrete empty-movelist position. -/
theorem c7_no_legal_moves_yields_none_witness :
    get_random_move emptyLib 0 [] = none
    ∧ (get_best_move (fun _ _ => none) emptyLib none none []).1 = none :=
  ⟨(c7_no_legal_moves_yields_none emptyLib [] rfl).1 0,
   (c7_no_legal_moves_yields_none emptyLib [] rfl).2 (fun _ _ => none) none none⟩

/-- C10 (confirmed): `reset_game` establishes the history-length relation
`len(board_history) = len(evaluations) = len(best_moves) =
len(move_history) + 1`, and it is preserved by `make_move` (whose
evaluation-recording step appends to `evaluations`/`best_moves` exactly
when a move was appended) and by `undo_move`. -/
theorem c10_history_length_invariant :
    (∀ s : GameState, histInv (reset_game s))
    ∧ (∀ (lib : ChessLib) (oracle : Board → Option (EvalScore × Option Move))
        (s : GameState) (m : Move), histInv s → histInv (make_move lib oracle s m).2)
    ∧ (∀ s : GameState, histInv s → histInv (undo_move s).2) := by
  refine ⟨?_, ?_, ?_⟩
  · intro s
    simp [reset_game, histInv]
  · intro lib oracle s m h
    obtain ⟨h1, h2, h3⟩ := h
    unfold make_move
    split
    · exact ⟨h1, h2, h3⟩
    · unfold histInv get_position_evaluation
      rcases horacle : oracle (s.chess_board.push m) with _ | ⟨e, bm⟩ <;>
        simp_all [List.length_append]
  · intro s h
    obtain ⟨h1, h2, h3⟩ := h
    unfold undo_move
    split
    · exact ⟨h1, h2, h3⟩
    · split
      · rename_i hchain
        exfalso
        obtain ⟨c1, c2, c3⟩ := hchain
        omega
      · exact ⟨h1, h2, h3⟩

/-- C5 (confirmed): on checkmate the declared winner is the side opposite
to the side to move (`current_turn` tracks the side to move), and the PGN
`Result` header is `"1-0"` exactly when the mated side to move is black and
`"0-1"` exactly when it is white. -/
theorem c5_checkmate_winner_and_result (lib : ChessLib) (s : GameState)
    (hsync : s.current_turn = sideToMove s.chess_board)
    (hcm : lib.is_checkmate s.chess_board = true) :
    (check_game_end lib s).status_text
        = (if sideToMove s.chess_board = Color.white then "Checkmate! Black wins!"
           else "Checkmate! White wins!")
    ∧ (pgn_result lib s = "1-0" ↔ sideToMove s.chess_board = Color.black)
    ∧ (pgn_result lib s = "0-1" ↔ sideToMove s.chess_board = Color.white) := by
  unfold check_game_end pgn_result
  rw [hsync, hcm]
  cases sideToMove s.chess_board <;> refine ⟨?_, ?_, ?_⟩ <;> simp

/-- C5 witness: the winner declaration and result header evaluated on a
concrete mated fresh position (white to move). -/
theorem c5_checkmate_winner_and_result_witness :
    (check_game_end sampleMateLib sampleState).status_text = "Checkmate! Black wins!"
    ∧ pgn_result sampleMateLib sampleState = "0-1" :=
  ⟨(c5_checkmate_winner_and_result sampleMateLib sampleState rfl rfl).1,
   (c5_checkmate_winner_and_result sampleMateLib sampleState rfl rfl).2.2.mpr rfl⟩

/-- C9 (confirmed): whatever text the external move providers answer with
— including malformed, unparseable or illegal suggestions, and stale cache
entries — a move actually returned by `get_ollama_move`, by the
`cached_ollama_move` body, or by `ChessEngine.get_best_move` is legal in
the current board position; every failure path yields the failure value. -/
theorem c9_returned_moves_are_legal :
    (∀ (lib : ChessLib) (s : GameState) (responses : List (Option (List Char))) (m : Move),
        (get_ollama_move lib s responses).1 = some m → m ∈ lib.legal_moves s.chess_board)
    ∧ (∀ (lib : ChessLib) (b : Board) (responses : List (Option (List Char))) (mstr : String),
        (cached_ollama_move_fresh lib b responses).1 = some mstr →
        ∃ mv, from_uci mstr.data = some mv ∧ mv ∈ lib.legal_moves b)
    ∧ (∀ (parse_san : Board → String → Option Move) (lib : ChessLib)
        (apiKey : Option String) (resp : Option (Nat × List Char)) (b : Board)
        (mstr expl : String),
        get_best_move parse_san lib apiKey resp b = (some mstr, expl) →
        ∃ mv, parse_san b mstr = some mv ∧ mv ∈ lib.legal_moves b) := by
  refine ⟨?_, ?_, ?_⟩
  · intro lib s responses m h
    simp only [get_ollama_move] at h
    split at h
    · simp at h
    · split at h
      · simp at h
      · split at h
        · rename_i hmem
          simp only at h
          obtain rfl : _ = m := Option.some.inj h
          simpa using hmem
        · simp at h
  · intro lib b responses mstr h
    simp only [cached_ollama_move_fresh] at h
    split at h
    · rename_i ms hfind
      simp only at h
      obtain rfl : String.mk ms = mstr := Option.some.inj h
      obtain ⟨a, _, hatt⟩ := List.exists_of_findSome?_eq_some hfind
      rcases a with _ | text
      · simp [ollamaAttempt] at hatt
      · simp only [ollamaAttempt] at hatt
        split at hatt
        · simp at hatt
        · split at hatt
          · simp at hatt
          · split at hatt
            · rename_i hmem
              obtain rfl := Option.some.inj hatt
              exact ⟨_, by assumption, hmem⟩
            · simp at hatt
    · simp at h
  · intro ps lib key resp b mstr expl h
    simp only [get_best_move] at h
    split at h
    · simp at h
    · split at h
      · simp at h
      · split at h
        · split at h
          · simp at h
          · split at h
            · split at h
              · rename_i hmem
                rw [Prod.mk.injEq] at h
                obtain ⟨h1, h2⟩ := h
                obtain rfl := Option.some.inj h1
                exact ⟨_, by assumption, hmem⟩
              · simp at h
            · simp at h
        · simp at h

/-- C9 witness: on a concrete position with a single legal move and a
well-formed provider response, the pipeline returns that move and it is
legal. -/
theorem c9_returned_moves_are_legal_witness :
    (⟨12, 28, none⟩ : Move) ∈ sampleLib.legal_moves sampleState.chess_board :=
  c9_returned_moves_are_legal.1 sampleLib sampleState [some "Move: e2e4\n".data]
    ⟨12, 28, none⟩ (by decide)

/-- For the run lengths 1..8 the encoder can emit, `str(e)` is the single
digit character with numeric value `e`. -/
theorem digitChar_spec (e : Nat) (hlo : 1 ≤ e) (hhi : e ≤ 8) :
    (49 ≤ (digitChar e).toNat ∧ (digitChar e).toNat ≤ 56)
    ∧ (digitChar e).toNat - 48 = e := by
  interval_cases e <;> exact ⟨by decide, by decide⟩

/-- Piece letters do not satisfy the digit test of the decoder. -/
theorem pieceChar_not_digit {ch : Char} (h : ch ∈ pieceChars) :
    ¬(49 ≤ ch.toNat ∧ ch.toNat ≤ 56) := by
  fin_cases h <;> decide

/-- Piece letters are not digit characters for the row scanner. -/
theorem pieceChar_not_digit18 {ch : Char} (h : ch ∈ pieceChars) :
    isDigit18 ch = false := by
  fin_cases h <;> decide

/-- Decoding inverts the rank encoder: the pending run of `e` empty squares
is recovered, then the remaining row. -/
theorem decodeRow_encodeRowAux (row : List Cell) (e : Nat)
    (hval : ∀ c ∈ row, validCell c) (hlen : e + row.length ≤ 8) :
    decodeRow (encodeRowAux row e) = some (List.replicate e none ++ row) := by
  induction row generalizing e with
  | nil =>
      by_cases he : e = 0
      · subst he
        simp [encodeRowAux, decodeRow]
      · have hs := digitChar_spec e (by omega) (by simpa using hlen)
        simp only [encodeRowAux, if_neg he, decodeRow, hs.2]
        rw [if_pos hs.1]
        simp [decodeRow]
  | cons c rest ih =>
      cases c with
      | none =>
          simp only [encodeRowAux]
          rw [ih (e + 1) (fun c hc => hval c (List.mem_cons_of_mem _ hc))
            (by simp only [List.length_cons] at hlen ⊢; omega)]
          rw [List.replicate_succ']
          simp
      | some ch =>
          have hch : ch ∈ pieceChars := by
            have := hval (some ch) (List.mem_cons_self _ _)
            simpa [validCell] using this
          have hrest := ih 0 (fun c hc => hval c (List.mem_cons_of_mem _ hc))
            (by simp only [List.length_cons] at hlen ⊢; omega)
          by_cases he : e = 0
          · subst he
            simp only [encodeRowAux, if_pos rfl, List.nil_append, decodeRow]
            rw [if_neg (pieceChar_not_digit hch), if_pos hch, hrest]
            simp
          · have hs := digitChar_spec e (by omega)
              (by simp only [List.length_cons] at hlen; omega)
            simp only [encodeRowAux, if_neg he, List.cons_append, List.nil_append,
              decodeRow, hs.2]
            rw [if_pos hs.1, if_neg (pieceChar_not_digit hch), if_pos hch, hrest]
            simp

/-- Every encoded rank passes the row scanner of the python-chess board
constructor. -/
theorem fenRowCheck_encodeRowAux (row : List Cell) (e fieldSum : Nat)
    (hval : ∀ c ∈ row, validCell c) (hsum : fieldSum + e + row.length = 8) :
    fenRowCheck (encodeRowAux row e) fieldSum false = true := by
  induction row generalizing e fieldSum with
  | nil =>
      simp only [List.length_nil] at hsum
      by_cases he : e = 0
      · subst he
        simp only [encodeRowAux, if_pos rfl, fenRowCheck, decide_eq_true_eq]
        omega
      · have hs := digitChar_spec e (by omega) (by omega)
        have hd : isDigit18 (digitChar e) = true := by
          simp only [isDigit18, Bool.and_eq_true, decide_eq_true_eq]
          exact hs.1
        simp only [encodeRowAux, if_neg he, fenRowCheck]
        rw [if_pos hd, hs.2]
        simp only [fenRowCheck, Bool.not_false, Bool.true_and, decide_eq_true_eq]
        omega
  | cons c rest ih =>
      cases c with
      | none =>
          simp only [encodeRowAux]
          exact ih (e + 1) fieldSum (fun c hc => hval c (List.mem_cons_of_mem _ hc))
            (by simp only [List.length_cons] at hsum ⊢; omega)
      | some ch =>
          have hch : ch ∈ pieceChars := by
            have := hval (some ch) (List.mem_cons_self _ _)
            simpa [validCell] using this
          have hd0 : isDigit18 ch = false := pieceChar_not_digit18 hch
          have hrec := fun sum2 h2 => ih 0 sum2
            (fun c hc => hval c (List.mem_cons_of_mem _ hc)) h2
          by_cases he : e = 0
          · subst he
            simp only [encodeRowAux, if_pos rfl, List.nil_append, fenRowCheck]
            rw [if_neg (by simp [hd0]), if_pos hch]
            exact hrec (fieldSum + 1) (by simp only [List.length_cons] at hsum ⊢; omega)
          · have hs := digitChar_spec e (by omega)
              (by simp only [List.length_cons] at hsum; omega)
            have hd : isDigit18 (digitChar e) = true := by
              simp only [isDigit18, Bool.and_eq_true, decide_eq_true_eq]
              exact hs.1
            simp only [encodeRowAux, if_neg he, List.cons_append, List.nil_append,
              fenRowCheck]
            rw [if_pos hd, hs.2]
            simp only [Bool.not_false, Bool.true_and]
            rw [if_neg (by simp [hd0]), if_pos hch]
            exact hrec (fieldSum + e + 1) (by simp only [List.length_cons] at hsum ⊢; omega)

/-- Every character of an encoded rank is a digit 1..8 or a piece letter. -/
theorem encodeRowAux_chars (row : List Cell) (e : Nat)
    (hval : ∀ c ∈ row, validCell c) (hlen : e + row.length ≤ 8) :
    ∀ ch ∈ encodeRowAux row e, isDigit18 ch = true ∨ ch ∈ pieceChars := by
  induction row generalizing e with
  | nil =>
      by_cases he : e = 0
      · subst he
        simp [encodeRowAux]
      · have hs := digitChar_spec e (by omega) (by simpa using hlen)
        have hd : isDigit18 (digitChar e) = true := by
          simp only [isDigit18, Bool.and_eq_true, decide_eq_true_eq]
          exact hs.1
        simp [encodeRowAux, if_neg he, hd]
  | cons c rest ih =>
      cases c with
      | none =>
          simp only [encodeRowAux]
          exact ih (e + 1) (fun c hc => hval c (List.mem_cons_of_mem _ hc))
            (by simp only [List.length_cons] at hlen ⊢; omega)
      | some ch =>
          have hch : ch ∈ pieceChars := by
            have := hval (some ch) (List.mem_cons_self _ _)
            simpa [validCell] using this
          have hrec := ih 0 (fun c hc => hval c (List.mem_cons_of_mem _ hc))
            (by simp only [List.length_cons] at hlen ⊢; omega)
          intro x hx
          by_cases he : e = 0
          · subst he
            simp only [encodeRowAux, if_pos rfl, List.nil_append] at hx
            rcases List.mem_cons.mp hx with heq | hx
            · subst heq; exact Or.inr hch
            · exact hrec x hx
          · have hs := digitChar_spec e (by omega)
              (by simp only [List.length_cons] at hlen; omega)
            have hd : isDigit18 (digitChar e) = true := by
              simp only [isDigit18, Bool.and_eq_true, decide_eq_true_eq]
              exact hs.1
            simp only [encodeRowAux, if_neg he, List.cons_append, List.nil_append] at hx
            rcases List.mem_cons.mp hx with heq | hx
            · subst heq; exact Or.inl hd
            · rcases List.mem_cons.mp hx with heq | hx
              · subst heq; exact Or.inr hch
              · exact hrec x hx

/-- Digits and piece letters are not the rank separator. -/
theorem fenRowChar_not_slash {ch : Char}
    (h : isDigit18 ch = true ∨ ch ∈ pieceChars) : ch ≠ '/' := by
  intro heq
  subst heq
  rcases h with h | h
  · exact absurd h (by decide)
  · exact absurd h (by decide)

/-- Digits and piece letters are not whitespace. -/
theorem fenRowChar_not_ws {ch : Char}
    (h : isDigit18 ch = true ∨ ch ∈ pieceChars) : isWs ch = false := by
  have hne : ch ≠ ' ' ∧ ch ≠ '\n' ∧ ch ≠ '\t' ∧ ch ≠ '\r' := by
    rcases h with h | h
    · refine ⟨?_, ?_, ?_, ?_⟩ <;> intro heq <;> subst heq <;> exact absurd h (by decide)
    · refine ⟨?_, ?_, ?_, ?_⟩ <;> intro heq <;> subst heq <;> exact absurd h (by decide)
  simp [isWs, hne.1, hne.2.1, hne.2.2.1, hne.2.2.2]

/-- Splitting a slash-free segment yields that single segment. -/
theorem splitOnSlash_no_slash (r : List Char) (h : ∀ c ∈ r, c ≠ '/') :
    splitOnSlash r = [r] := by
  induction r with
  | nil => rfl
  | cons c rest ih =>
      have hc : c ≠ '/' := h c (List.mem_cons_self _ _)
      simp only [splitOnSlash, if_neg hc]
      rw [ih (fun d hd => h d (List.mem_cons_of_mem _ hd))]

/-- Splitting past a slash-free segment peels it off. -/
theorem splitOnSlash_append (r xs : List Char) (h : ∀ c ∈ r, c ≠ '/') :
    splitOnSlash (r ++ '/' :: xs) = r :: splitOnSlash xs := by
  induction r with
  | nil => simp [splitOnSlash]
  | cons c rest ih =>
      have hc : c ≠ '/' := h c (List.mem_cons_self _ _)
      simp only [List.cons_append, splitOnSlash, if_neg hc, List.append_eq]
      rw [ih (fun d hd => h d (List.mem_cons_of_mem _ hd))]

/-- Splitting on the separator inverts the join of slash-free rows. -/
theorem splitOnSlash_joinSlash (rows : List (List Char)) (hne : rows ≠ [])
    (h : ∀ r ∈ rows, ∀ c ∈ r, c ≠ '/') :
    splitOnSlash (joinSlash rows) = rows := by
  induction rows with
  | nil => exact absurd rfl hne
  | cons r rest ih =>
      cases rest with
      | nil =>
          simp only [joinSlash]
          exact splitOnSlash_no_slash r (h r (List.mem_cons_self _ _))
      | cons r2 rs =>
          simp only [joinSlash]
          rw [splitOnSlash_append r _ (h r (List.mem_cons_self _ _)),
            ih (by simp) (fun q hq => h q (List.mem_cons_of_mem _ hq))]

/-- Every character of a join is the separator or comes from a row. -/
theorem mem_joinSlash (c : Char) : ∀ (rows : List (List Char)),
    c ∈ joinSlash rows → c = '/' ∨ ∃ r ∈ rows, c ∈ r
  | [], h => by simp [joinSlash] at h
  | [r], h => by
      simp only [joinSlash] at h
      exact Or.inr ⟨r, List.mem_cons_self _ _, h⟩
  | r :: r2 :: rs, h => by
      simp only [joinSlash, List.mem_append, List.mem_cons] at h
      rcases h with h | h | h
      · exact Or.inr ⟨r, List.mem_cons_self _ _, h⟩
      · exact Or.inl h
      · rcases mem_joinSlash c (r2 :: rs) h with h | ⟨q, hq, hcq⟩
        · exact Or.inl h
        · exact Or.inr ⟨q, List.mem_cons_of_mem _ hq, hcq⟩

/-- Scanning a whitespace-free word followed by a space peels the word. -/
theorem splitWsAux_word (p : List Char) (rest : List Char) :
    ∀ acc : List Char, (∀ c ∈ p, isWs c = false) → (acc ≠ [] ∨ p ≠ []) →
    splitWsAux (p ++ ' ' :: rest) acc = (acc.reverse ++ p) :: splitWsAux rest [] := by
  induction p with
  | nil =>
      intro acc _ hne
      have hacc : acc ≠ [] := by
        rcases hne with h | h
        · exact h
        · exact absurd rfl h
      simp only [List.nil_append, splitWsAux]
      rw [if_pos (by decide), if_neg hacc]
      simp
  | cons c p ih =>
      intro acc hp _
      have hc : isWs c = false := hp c (List.mem_cons_self _ _)
      simp only [List.cons_append, splitWsAux, List.append_eq]
      rw [if_neg (by simp [hc])]
      rw [ih (c :: acc) (fun d hd => hp d (List.mem_cons_of_mem _ hd))
        (Or.inl (by simp))]
      simp

/-- Python `split()` of a whitespace-free word, a space and a remainder. -/
theorem splitWs_word_sep (p rest : List Char) (hp : ∀ c ∈ p, isWs c = false)
    (hne : p ≠ []) : splitWs (p ++ ' ' :: rest) = p :: splitWs rest := by
  unfold splitWs
  rw [splitWsAux_word p rest [] hp (Or.inr hne)]
  simp

/-- Row-wise decoding succeeds across a whole board. -/
theorem mapM_decodeRow (board : List (List Cell))
    (h : ∀ row ∈ board, decodeRow (encodeRow row) = some row) :
    (board.map encodeRow).mapM decodeRow = some board := by
  induction board with
  | nil => rfl
  | cons r rest ih =>
      simp only [List.map_cons, List.mapM_cons]
      rw [h r (List.mem_cons_self _ _), ih (fun q hq => h q (List.mem_cons_of_mem _ hq))]
      rfl

/-- C8 (confirmed): for every 8×8 board array over piece characters and
empties, `board_array_to_fen` emits exactly the run-length encoding of the
array as its placement field (the `validate_fen` step passes it through
unchanged, with no silent starting-position substitution), each encoded
rank expands back to exactly its 8 source squares, and decoding the
placement field reproduces the original array. -/
theorem c8_fen_placement_roundtrip (board : List (List Cell))
    (hlen : board.length = 8)
    (hrows : ∀ row ∈ board, row.length = 8 ∧ ∀ c ∈ row, validCell c) :
    (∀ row ∈ board, decodeRow (encodeRow row) = some row)
    ∧ decodePlacement (placementField board) = some board
    ∧ board_array_to_fen board
        = String.mk (placementField board ++ " w KQkq - 0 1".data) := by
  have hdec : ∀ row ∈ board, decodeRow (encodeRow row) = some row := by
    intro row hr
    have h := hrows row hr
    simpa using decodeRow_encodeRowAux row 0 h.2 (by omega)
  have hchars : ∀ r ∈ board.map encodeRow, ∀ c ∈ r,
      isDigit18 c = true ∨ c ∈ pieceChars := by
    intro r hr c hc
    obtain ⟨row, hrow, rfl⟩ := List.mem_map.mp hr
    exact encodeRowAux_chars row 0 (hrows row hrow).2
      (by have := (hrows row hrow).1; omega) c hc
  have hsplit : splitOnSlash (placementField board) = board.map encodeRow := by
    apply splitOnSlash_joinSlash
    · exact List.ne_nil_of_length_pos (by simp [hlen])
    · intro r hr c hc
      exact fenRowChar_not_slash (hchars r hr c hc)
  have hplacement : placementOk (placementField board) = true := by
    unfold placementOk
    rw [hsplit]
    simp only [Bool.and_eq_true, decide_eq_true_eq, List.all_eq_true]
    constructor
    · simp [hlen]
    · intro r hr
      obtain ⟨row, hrow, rfl⟩ := List.mem_map.mp hr
      exact fenRowCheck_encodeRowAux row 0 0 (hrows row hrow).2
        (by have := (hrows row hrow).1; omega)
  have hnows : ∀ c ∈ placementField board, isWs c = false := by
    intro c hc
    rcases mem_joinSlash c (board.map encodeRow) hc with rfl | ⟨r, hr, hcr⟩
    · decide
    · exact fenRowChar_not_ws (hchars r hr c hcr)
  have hne : placementField board ≠ [] := by
    cases board with
    | nil => simp at hlen
    | cons r rest =>
        cases rest with
        | nil => simp at hlen
        | cons r2 rs =>
            simp [placementField, joinSlash]
  have hfen : fenOk (String.mk (placementField board ++ " w KQkq - 0 1".data)) = true := by
    unfold fenOk
    have hdata : (String.mk (placementField board ++ " w KQkq - 0 1".data)).data
        = placementField board ++ ' ' :: "w KQkq - 0 1".data := rfl
    rw [hdata, splitWs_word_sep _ _ hnows hne]
    have htail : splitWs "w KQkq - 0 1".data
        = [['w'], ['K', 'Q', 'k', 'q'], ['-'], ['0'], ['1']] := by decide
    rw [htail]
    show (placementOk (placementField board) && turnTokOk ['w'] && castlingTokOk ['K', 'Q', 'k', 'q']
      && epTokOk ['-'] && numTokOk ['0'] && numTokOk ['1']) = true
    rw [hplacement]
    decide
  refine ⟨hdec, ?_, ?_⟩
  · unfold decodePlacement
    rw [hsplit]
    exact mapM_decodeRow board hdec
  · unfold board_array_to_fen validate_fen
    rw [if_pos hfen]

/-- C8 witness: the round trip evaluated on the concrete empty 8×8 board
array. -/
theorem c8_fen_placement_roundtrip_witness :
    decodePlacement (placementField (List.replicate 8 (List.replicate 8 (none : Cell))))
      = some (List.replicate 8 (List.replicate 8 (none : Cell))) :=
  (c8_fen_placement_roundtrip (List.replicate 8 (List.replicate 8 (none : Cell)))
    (by decide) (by decide)).2.1

/-- C10 witness: the invariant evaluated after a reset and after one
concrete successful move. -/
theorem c10_history_length_invariant_witness :
    histInv (reset_game sampleState)
    ∧ histInv (make_move sampleLib sampleOracle (reset_game sampleState) ⟨12, 28, none⟩).2 :=
  ⟨c10_history_length_invariant.1 sampleState,
   c10_history_length_invariant.2.1 sampleLib sampleOracle (reset_game sampleState)
     ⟨12, 28, none⟩ ⟨rfl, rfl, rfl⟩⟩

end GrokChess
